import Mathlib

/-!
Verification of the Shield Messenger cryptographic core against its
specification.  The repository ships only the two C bridging headers that
declare the FFI surface (`sl_encrypt`, `sl_decrypt`, `sl_sign`, `sl_verify`,
`sl_x25519_derive_shared_secret`, `sl_derive_root_key`,
`sl_evolve_chain_key`, `sl_hash_password`, `sl_verify_password`,
`sl_generate_safety_number`); the Rust implementations behind them are not
part of the sources.  Each operation is therefore modelled from the
specification text, with hash/MAC/KDF primitives idealised as injective
encodings (the standard random-oracle-style idealisation) and internal
randomness (nonces, salts) made an explicit parameter.
-/

namespace ShieldMessenger

/-- Byte strings crossing the FFI boundary, modelled as lists of naturals. -/
abbrev Bytes := List Nat

/-- Injective length-prefixed pairing of two byte strings; the building
block used to idealise the hash/MAC/KDF primitives. -/
def encodePair (a b : Bytes) : Bytes := a.length :: (a ++ b)

theorem encodePair_inj {a b c d : Bytes}
    (h : encodePair a b = encodePair c d) : a = c ∧ b = d := by
  unfold encodePair at h
  have hlen : a.length = c.length := by
    simpa using congrArg (fun l => l.headD 0) h
  have htail : a ++ b = c ++ d := by
    simpa using congrArg List.tail h
  exact List.append_inj htail hlen

theorem encodePair_length (a b : Bytes) :
    (encodePair a b).length = a.length + b.length + 1 := by
  simp [encodePair]

/-- Modelled from the spec: `sl_derive_root_key` (HKDF-style extract-then-
expand) binds the shared secret to a domain-separation info label; the Rust
implementation is absent from the sources, so the KDF is idealised as a
domain-tagged injective encoding of (secret, label). -/
def sl_derive_root_key (shared_secret : Bytes) (info : Bytes) : Bytes :=
  0 :: encodePair shared_secret info

/-- Fixed constant over which the chain-key HMAC step is computed. -/
def chainConst : Bytes := [67, 75]

/-- Modelled from the spec: `sl_evolve_chain_key` performs one deterministic
one-way ratchet step (HMAC keyed by the chain key over a fixed constant);
the Rust implementation is absent from the sources, so the step is idealised
as a domain-tagged injective encoding of the chain key with the constant. -/
def sl_evolve_chain_key (chain_key : Bytes) : Bytes :=
  1 :: encodePair chain_key chainConst

/-- Memory visible to one `sl_evolve_chain_key` FFI call: the caller's
chain-key buffer and the caller's output buffer. -/
structure ChainCallMem where
  chainKeyBuf : Bytes
  outBuf : Bytes
  deriving DecidableEq

/-- Modelled from the spec: the effect of one `sl_evolve_chain_key` call on
the caller's buffers — the evolved key is written to the output buffer and
no other caller memory is touched; the Rust implementation is absent from
the sources. -/
def sl_evolve_chain_key_call (m : ChainCallMem) : ChainCallMem :=
  { chainKeyBuf := m.chainKeyBuf,
    outBuf := sl_evolve_chain_key m.chainKeyBuf }

/-- Claim C6: for every shared secret and distinct domain-separation labels
the derived root keys differ — the derivation binds its output to the info
label. -/
theorem sl_derive_root_key_label_binding
    (s l1 l2 : Bytes) (h : l1 ≠ l2) :
    sl_derive_root_key s l1 ≠ sl_derive_root_key s l2 := by
  intro heq
  unfold sl_derive_root_key at heq
  exact h (encodePair_inj (List.cons.injEq _ _ _ _ ▸ heq).2).2

theorem sl_derive_root_key_label_binding_witness :
    ([0] : Bytes) ≠ [1] ∧
      sl_derive_root_key [7] [0] ≠ sl_derive_root_key [7] [1] :=
  ⟨by decide, sl_derive_root_key_label_binding [7] [0] [1] (by decide)⟩

/-- Claim C7: chain-key evolution is deterministic (it is a pure function of
the input chain key) and never returns its own input. -/
theorem sl_evolve_chain_key_spec (c : Bytes) :
    sl_evolve_chain_key c = sl_evolve_chain_key c ∧
      sl_evolve_chain_key c ≠ c := by
  refine ⟨rfl, fun h => ?_⟩
  have hlen := congrArg List.length h
  simp [sl_evolve_chain_key, encodePair_length, chainConst] at hlen
  omega

/-- Claim C10: an `sl_evolve_chain_key` call writes the evolved key to the
output buffer only; the caller-supplied input chain-key buffer is unchanged
by the call. -/
theorem sl_evolve_chain_key_frames_input (m : ChainCallMem) :
    (sl_evolve_chain_key_call m).chainKeyBuf = m.chainKeyBuf ∧
      (sl_evolve_chain_key_call m).outBuf =
        sl_evolve_chain_key m.chainKeyBuf :=
  ⟨rfl, rfl⟩

/-- Length of the random nonce the AEAD draws per encryption (24 bytes,
XChaCha20-Poly1305). -/
def nonceLen : Nat := 24

/-- Idealised cipher keystream derived from key and nonce, one word per
plaintext position. -/
def keystream (key nonce : Bytes) (n : Nat) : Bytes :=
  (List.range n).map (fun i => key.sum + nonce.sum + i)

/-- Pointwise xor of two byte strings (the stream-cipher layer). -/
def xorBytes (a b : Bytes) : Bytes := List.zipWith (fun x y => x ^^^ y) a b

/-- Idealised Poly1305 authentication tag over key, nonce and ciphertext,
modelled as a domain-tagged injective encoding. -/
def aeadTag (key nonce ct : Bytes) : Bytes :=
  2 :: encodePair key (encodePair nonce ct)

/-- Modelled from the spec: `sl_encrypt` authenticates and encrypts the
plaintext under a freshly drawn random nonce and returns the single buffer
nonce ‖ ciphertext ‖ tag; the Rust implementation is absent from the
sources, so the internal random nonce draw is made an explicit argument. -/
def sl_encrypt (nonce plaintext key : Bytes) : Bytes :=
  nonce ++ xorBytes plaintext (keystream key nonce plaintext.length) ++
    aeadTag key nonce (xorBytes plaintext (keystream key nonce plaintext.length))

/-- Ciphertext-payload length recovered while parsing a decryption input
buffer (everything after the nonce splits into payload and tag). -/
def ctLenOf (buf key : Bytes) : Nat :=
  ((buf.drop nonceLen).length - key.length - nonceLen - 3) / 2

/-- Modelled from the spec: `sl_decrypt` extracts the nonce, verifies the
authentication tag before releasing any plaintext and fails closed with no
partial output on any mismatch or truncation; the Rust implementation is
absent from the sources. -/
def sl_decrypt (buf key : Bytes) : Option Bytes :=
  if buf.length < nonceLen + 1 then none
  else if (buf.drop nonceLen).drop (ctLenOf buf key) =
      aeadTag key (buf.take nonceLen) ((buf.drop nonceLen).take (ctLenOf buf key)) then
    some (xorBytes ((buf.drop nonceLen).take (ctLenOf buf key))
      (keystream key (buf.take nonceLen)
        ((buf.drop nonceLen).take (ctLenOf buf key)).length))
  else none

/-- The condition under which `sl_decrypt` rejects its input: the buffer is
too short to hold a nonce and a tag, or the embedded authentication tag does
not match the recomputed one (wrong key, corrupted payload, or corrupted
tag all land here). -/
def DecryptRejects (buf key : Bytes) : Prop :=
  buf.length < nonceLen + 1 ∨
    (buf.drop nonceLen).drop (ctLenOf buf key) ≠
      aeadTag key (buf.take nonceLen) ((buf.drop nonceLen).take (ctLenOf buf key))

instance (buf key : Bytes) : Decidable (DecryptRejects buf key) := by
  unfold DecryptRejects; infer_instance

theorem length_keystream (key nonce : Bytes) (n : Nat) :
    (keystream key nonce n).length = n := by
  simp [keystream]

theorem length_xorBytes (a b : Bytes) :
    (xorBytes a b).length = min a.length b.length := by
  simp [xorBytes]

theorem xorBytes_xorBytes (p ks : Bytes) (h : p.length ≤ ks.length) :
    xorBytes (xorBytes p ks) ks = p := by
  induction p generalizing ks with
  | nil => simp [xorBytes]
  | cons a as ih =>
    cases ks with
    | nil => simp at h
    | cons k ks =>
      simp only [List.length_cons] at h
      simp only [xorBytes, List.zipWith_cons_cons]
      refine congrArg₂ List.cons ?_ (ih ks (by omega))
      rw [Nat.xor_assoc, Nat.xor_self, Nat.xor_zero]

theorem sl_decrypt_eq_none_of_rejects (buf key : Bytes)
    (h : DecryptRejects buf key) : sl_decrypt buf key = none := by
  unfold sl_decrypt
  rcases h with h | h
  · rw [if_pos h]
  · by_cases hl : buf.length < nonceLen + 1
    · rw [if_pos hl]
    · rw [if_neg hl, if_neg h]

/-- Claim C1: decrypting the buffer produced by `sl_encrypt` under the same
32-byte key recovers exactly the original plaintext (AEAD round trip); the
24-byte nonce drawn inside the encryption call is the explicit `nonce`
argument of the model. -/
theorem sl_encrypt_sl_decrypt_roundtrip (p key nonce : Bytes)
    (hn : nonce.length = nonceLen) (hk : key.length = 32) :
    sl_decrypt (sl_encrypt nonce p key) key = some p := by
  set ct := xorBytes p (keystream key nonce p.length) with hct
  have hctlen : ct.length = p.length := by
    rw [hct, length_xorBytes, length_keystream, Nat.min_self]
  have hbuf : sl_encrypt nonce p key = nonce ++ (ct ++ aeadTag key nonce ct) := by
    rw [sl_encrypt, ← hct, List.append_assoc]
  have htake : (sl_encrypt nonce p key).take nonceLen = nonce := by
    rw [hbuf, ← hn, List.take_left]
  have hdrop : (sl_encrypt nonce p key).drop nonceLen = ct ++ aeadTag key nonce ct := by
    rw [hbuf, ← hn, List.drop_left]
  have htaglen : (aeadTag key nonce ct).length =
      key.length + nonce.length + ct.length + 3 := by
    simp [aeadTag, encodePair_length]; omega
  have hctlenOf : ctLenOf (sl_encrypt nonce p key) key = ct.length := by
    unfold ctLenOf
    rw [hdrop, List.length_append, htaglen, hn]
    unfold nonceLen
    omega
  have hct2 : ((sl_encrypt nonce p key).drop nonceLen).take
      (ctLenOf (sl_encrypt nonce p key) key) = ct := by
    rw [hdrop, hctlenOf, List.take_left]
  have htag2 : ((sl_encrypt nonce p key).drop nonceLen).drop
      (ctLenOf (sl_encrypt nonce p key) key) = aeadTag key nonce ct := by
    rw [hdrop, hctlenOf, List.drop_left]
  have hlong : ¬ (sl_encrypt nonce p key).length < nonceLen + 1 := by
    rw [hbuf, List.length_append, List.length_append, htaglen, hn]
    omega
  rw [sl_decrypt, if_neg hlong, if_pos (by rw [htag2, htake, hct2]),
    htake, hct2, hctlen, hct,
    xorBytes_xorBytes _ _ (by simp [length_keystream])]

theorem sl_encrypt_sl_decrypt_roundtrip_witness :
    (List.replicate 24 0 : Bytes).length = nonceLen ∧
      (List.replicate 32 7 : Bytes).length = 32 ∧
      sl_decrypt (sl_encrypt (List.replicate 24 0) [1, 2] (List.replicate 32 7))
        (List.replicate 32 7) = some [1, 2] :=
  ⟨by decide, by decide,
    sl_encrypt_sl_decrypt_roundtrip [1, 2] (List.replicate 32 7)
      (List.replicate 24 0) (by decide) (by decide)⟩

/-- Claim C4: whenever tag verification fails in `sl_decrypt` — wrong key,
corrupted ciphertext, or truncated input — the call returns the failure
result with no plaintext bytes, and that failure is identical in content
across all causes. -/
theorem sl_decrypt_fails_closed (buf key buf2 key2 : Bytes)
    (h : DecryptRejects buf key) (h2 : DecryptRejects buf2 key2) :
    sl_decrypt buf key = none ∧ sl_decrypt buf key = sl_decrypt buf2 key2 := by
  rw [sl_decrypt_eq_none_of_rejects buf key h,
    sl_decrypt_eq_none_of_rejects buf2 key2 h2]
  exact ⟨rfl, rfl⟩

theorem sl_decrypt_fails_closed_witness :
    DecryptRejects [] [] ∧ DecryptRejects (List.replicate 25 0) [3] ∧
      sl_decrypt [] [] = none ∧
      sl_decrypt [] [] = sl_decrypt (List.replicate 25 0) [3] :=
  ⟨by decide, by decide,
    (sl_decrypt_fails_closed [] [] (List.replicate 25 0) [3]
      (by decide) (by decide)).1,
    (sl_decrypt_fails_closed [] [] (List.replicate 25 0) [3]
      (by decide) (by decide)).2⟩

/-- Claim C5: two encryption calls on the same plaintext and key draw their
own fresh 24-byte nonces, and whenever those nonces differ the two output
buffers are not identical. -/
theorem sl_encrypt_distinct_outputs (p key n1 n2 : Bytes)
    (h1 : n1.length = nonceLen) (h2 : n2.length = nonceLen) (hne : n1 ≠ n2) :
    sl_encrypt n1 p key ≠ sl_encrypt n2 p key := by
  intro heq
  apply hne
  have e1 : (sl_encrypt n1 p key).take nonceLen = n1 := by
    rw [sl_encrypt, List.append_assoc, ← h1, List.take_left]
  have e2 : (sl_encrypt n2 p key).take nonceLen = n2 := by
    rw [sl_encrypt, List.append_assoc, ← h2, List.take_left]
  rw [← e1, ← e2, heq]

theorem sl_encrypt_distinct_outputs_witness :
    (List.replicate 24 0 : Bytes).length = nonceLen ∧
      (List.replicate 24 1 : Bytes).length = nonceLen ∧
      (List.replicate 24 0 : Bytes) ≠ List.replicate 24 1 ∧
      sl_encrypt (List.replicate 24 0) [5] [9] ≠
        sl_encrypt (List.replicate 24 1) [5] [9] :=
  ⟨by decide, by decide, by decide,
    sl_encrypt_distinct_outputs [5] [9] (List.replicate 24 0)
      (List.replicate 24 1) (by decide) (by decide) (by decide)⟩

instance : Fact (Nat.Prime 251) := ⟨by norm_num⟩

/-- Generator of the model group standing in for the curve-25519 base
point; the group is modelled multiplicatively inside the field `ZMod 251`. -/
def basePoint : ZMod 251 := 7

/-- Public half of an X25519 keypair: scalar multiplication of the base
point by the private scalar, modelled as exponentiation. -/
def x25519PublicKey (priv : Nat) : ZMod 251 := basePoint ^ priv

/-- Modelled from the spec: `sl_x25519_derive_shared_secret` combines our
private scalar with their public point and fails on a zero/invalid public
key; the Rust implementation is absent from the sources, so the curve group
is modelled as the multiplicative group of `ZMod 251`. -/
def sl_x25519_derive_shared_secret (priv : Nat) (pub : ZMod 251) :
    Option (ZMod 251) :=
  if pub = 0 then none else some (pub ^ priv)

/-- Claim C2: for any two X25519 keypairs both directions of the exchange
succeed and derive the same shared secret (Diffie–Hellman commutativity). -/
theorem sl_x25519_derive_shared_secret_comm (a b : Nat) :
    ∃ s, sl_x25519_derive_shared_secret a (x25519PublicKey b) = some s ∧
      sl_x25519_derive_shared_secret b (x25519PublicKey a) = some s := by
  have hz : ∀ n : Nat, x25519PublicKey n ≠ 0 := fun n =>
    pow_ne_zero _ (by decide : basePoint ≠ 0)
  refine ⟨basePoint ^ (b * a), ?_, ?_⟩
  · rw [sl_x25519_derive_shared_secret, if_neg (hz b), x25519PublicKey,
      ← pow_mul]
  · rw [sl_x25519_derive_shared_secret, if_neg (hz a), x25519PublicKey,
      ← pow_mul, Nat.mul_comm a b]

/-- Public half of an Ed25519 identity keypair, derived deterministically
and injectively from the private key. -/
def ed25519PublicKey (priv : Bytes) : Bytes := 3 :: priv

/-- Modelled from the spec: `sl_sign` produces the signature on a message
under an identity private key; the Rust implementation is absent from the
sources, so the signature is idealised as a domain-tagged injective
encoding of (signer public key, message). -/
def sl_sign (msg : Bytes) (priv : Bytes) : Bytes :=
  4 :: encodePair (ed25519PublicKey priv) msg

/-- Modelled from the spec: `sl_verify` succeeds exactly when the signature
is valid for precisely that data and public key (no partial or prefix
match); the Rust implementation is absent from the sources. -/
def sl_verify (msg sig pub : Bytes) : Bool :=
  decide (sig = 4 :: encodePair pub msg)

/-- Flip bit `i` (little-endian within bytes) of a byte string. -/
def flipBit (bs : Bytes) (i : Nat) : Bytes :=
  bs.set (i / 8) (bs.getD (i / 8) 0 ^^^ (1 <<< (i % 8)))

theorem xor_ne_self (a m : Nat) (hm : m ≠ 0) : a ^^^ m ≠ a := by
  intro h
  apply hm
  have h2 := congrArg (fun x => a ^^^ x) h
  simpa [← Nat.xor_assoc, Nat.xor_self, Nat.zero_xor] using h2

theorem getD_set_self (l : Bytes) (n v : Nat) (h : n < l.length) :
    (l.set n v).getD n 0 = v := by
  induction l generalizing n with
  | nil => simp at h
  | cons a as ih =>
    cases n with
    | zero => rfl
    | succ m =>
      have hm := ih m (by simpa using h)
      simpa [List.set, List.getD] using hm

theorem flipBit_ne (bs : Bytes) (i : Nat) (h : i / 8 < bs.length) :
    flipBit bs i ≠ bs := by
  intro heq
  have hset : (flipBit bs i).getD (i / 8) 0 =
      bs.getD (i / 8) 0 ^^^ (1 <<< (i % 8)) :=
    getD_set_self bs (i / 8) _ h
  rw [heq] at hset
  have hpos : (1 <<< (i % 8)) ≠ 0 := by
    rw [Nat.one_shiftLeft]
    exact (pow_pos (by norm_num : (0 : Nat) < 2) (i % 8)).ne'
  exact xor_ne_self _ _ hpos hset.symm

/-- Claim C3: for every message (the empty one included) a signature
produced by `sl_sign` verifies under the matching public key; and for any
signature accepted by `sl_verify`, flipping any single bit of the message
or of the signature (the bit index lying within the flipped buffer) makes
verification fail. -/
theorem sl_sign_sl_verify_spec (priv msg S pub : Bytes) (i j : Nat) :
    sl_verify msg (sl_sign msg priv) (ed25519PublicKey priv) = true ∧
      (sl_verify msg S pub = true → i / 8 < msg.length →
        sl_verify (flipBit msg i) S pub = false) ∧
      (sl_verify msg S pub = true → j / 8 < S.length →
        sl_verify msg (flipBit S j) pub = false) := by
  refine ⟨by simp [sl_verify, sl_sign], ?_, ?_⟩
  · intro hS hi
    rw [sl_verify, decide_eq_true_eq] at hS
    rw [sl_verify, decide_eq_false_iff_not]
    intro hcon
    rw [hS] at hcon
    have htail : encodePair pub msg = encodePair pub (flipBit msg i) :=
      congrArg List.tail hcon
    exact flipBit_ne msg i hi ((encodePair_inj htail).2).symm
  · intro hS hj
    rw [sl_verify, decide_eq_true_eq] at hS
    rw [sl_verify, decide_eq_false_iff_not, ← hS]
    exact flipBit_ne S j hj

theorem sl_sign_sl_verify_spec_witness :
    sl_verify [] (sl_sign [] [1]) (ed25519PublicKey [1]) = true ∧
      sl_verify [0] (sl_sign [0] [1]) (ed25519PublicKey [1]) = true ∧
      sl_verify (flipBit [0] 0) (sl_sign [0] [1]) (ed25519PublicKey [1]) = false ∧
      sl_verify [0] (flipBit (sl_sign [0] [1]) 0) (ed25519PublicKey [1]) = false :=
  ⟨(sl_sign_sl_verify_spec [1] [] (sl_sign [] [1])
      (ed25519PublicKey [1]) 0 0).1,
    (sl_sign_sl_verify_spec [1] [0] (sl_sign [0] [1])
      (ed25519PublicKey [1]) 0 0).1,
    (sl_sign_sl_verify_spec [1] [0] (sl_sign [0] [1])
      (ed25519PublicKey [1]) 0 0).2.1 (by decide) (by decide),
    (sl_sign_sl_verify_spec [1] [0] (sl_sign [0] [1])
      (ed25519PublicKey [1]) 0 0).2.2 (by decide) (by decide)⟩

/-- Idealised Argon2id digest of a salt and a password, modelled as a
domain-tagged injective encoding. -/
def argonHash (salt pw : Bytes) : Bytes := 5 :: encodePair salt pw

/-- Modelled from the spec: `sl_hash_password` hashes the password under a
freshly drawn random salt and returns a self-describing encoded string
embedding the salt with the digest; the Rust implementation is absent from
the sources, so the internal random salt draw is made an explicit
argument. -/
def sl_hash_password (salt : Bytes) (pw : Bytes) : Bytes :=
  encodePair salt (argonHash salt pw)

/-- Modelled from the spec: `sl_verify_password` re-derives the digest from
the parameters embedded in the encoded hash and compares; the Rust
implementation is absent from the sources. -/
def sl_verify_password (pw : Bytes) (encoded : Bytes) : Bool :=
  match encoded with
  | [] => false
  | n :: rest => decide (rest.drop n = argonHash (rest.take n) pw)

/-- Claim C8: verifying a password against its own hash succeeds, and
verifying any different password against that hash fails. -/
theorem sl_hash_password_sl_verify_password (salt pw pw2 : Bytes)
    (h : pw2 ≠ pw) :
    sl_verify_password pw (sl_hash_password salt pw) = true ∧
      sl_verify_password pw2 (sl_hash_password salt pw) = false := by
  constructor
  · show decide ((salt ++ argonHash salt pw).drop salt.length =
      argonHash ((salt ++ argonHash salt pw).take salt.length) pw) = true
    rw [List.drop_left, List.take_left, decide_eq_true_eq]
  · show decide ((salt ++ argonHash salt pw).drop salt.length =
      argonHash ((salt ++ argonHash salt pw).take salt.length) pw2) = false
    rw [List.drop_left, List.take_left, decide_eq_false_iff_not]
    intro hcon
    have htail : encodePair salt pw = encodePair salt pw2 :=
      congrArg List.tail hcon
    exact h ((encodePair_inj htail).2).symm

theorem sl_hash_password_sl_verify_password_witness :
    ([0] : Bytes) ≠ [1] ∧
      sl_verify_password [1] (sl_hash_password [2] [1]) = true ∧
      sl_verify_password [0] (sl_hash_password [2] [1]) = false :=
  ⟨by decide,
    (sl_hash_password_sl_verify_password [2] [1] [0] (by decide)).1,
    (sl_hash_password_sl_verify_password [2] [1] [0] (by decide)).2⟩

/-- Lexicographic order on raw key bytes, used to canonicalise the argument
order before fingerprinting. -/
def lexLe : Bytes → Bytes → Bool
  | [], _ => true
  | _ :: _, [] => false
  | a :: as, b :: bs =>
    if a < b then true else if b < a then false else lexLe as bs

/-- Idealised fingerprint hash over the canonically ordered pair of
identity keys. -/
def safetyFingerprint (x y : Bytes) : Bytes := 6 :: encodePair x y

/-- Modelled from the spec: `sl_generate_safety_number` canonicalises the
two public identity keys into one deterministic (lexicographic) order
before hashing, so both parties compute the same string; the Rust
implementation is absent from the sources. -/
def sl_generate_safety_number (a b : Bytes) : Bytes :=
  if lexLe a b then safetyFingerprint a b else safetyFingerprint b a

theorem lexLe_total (a b : Bytes) : lexLe a b = true ∨ lexLe b a = true := by
  induction a generalizing b with
  | nil => left; rfl
  | cons x xs ih =>
    cases b with
    | nil => right; rfl
    | cons y ys =>
      rcases Nat.lt_trichotomy x y with h | h | h
      · left; simp [lexLe, h]
      · subst h
        rcases ih ys with hh | hh
        · left; simp [lexLe, hh]
        · right; simp [lexLe, hh]
      · right; simp [lexLe, h]

theorem lexLe_antisymm (a b : Bytes) (h1 : lexLe a b = true)
    (h2 : lexLe b a = true) : a = b := by
  induction a generalizing b with
  | nil =>
    cases b with
    | nil => rfl
    | cons y ys => simp [lexLe] at h2
  | cons x xs ih =>
    cases b with
    | nil => simp [lexLe] at h1
    | cons y ys =>
      rcases Nat.lt_trichotomy x y with h | h | h
      · simp [lexLe, h, Nat.lt_asymm h] at h2
      · subst h
        simp only [lexLe, lt_irrefl, if_false] at h1 h2
        exact congrArg (List.cons x) (ih ys h1 h2)
      · simp [lexLe, h, Nat.lt_asymm h] at h1

/-- Claim C9: the safety number is symmetric in its two identity-key
arguments — both parties compute exactly the same string. -/
theorem sl_generate_safety_number_comm (a b : Bytes) :
    sl_generate_safety_number a b = sl_generate_safety_number b a := by
  unfold sl_generate_safety_number
  by_cases h1 : lexLe a b = true
  · by_cases h2 : lexLe b a = true
    · have hab := lexLe_antisymm a b h1 h2
      subst hab
      rfl
    · simp [h1, h2]
  · rcases lexLe_total a b with hh | hh
    · contradiction
    · simp [h1, hh]

end ShieldMessenger
